import Mathlib

/-
Verification of the content summarizer map-reduce pipeline.

Strings of the Python source are modelled as `List Char`; Python string
primitives (`str.rfind`, `str.strip`, `str.lstrip`, `str.lower`,
`str.replace`, slicing) are embedded as executable functions on `List Char`
with the same semantics.  Fallible pipeline stages return `Except`, and the
sequence of LLM prompts issued by a pipeline run is recorded explicitly so
that fail-fast and call-count properties can be stated.
-/

namespace ContentSummarizer

/-- Python `str.isspace` restricted to the ASCII whitespace characters,
which is what `str.strip` and `str.lstrip` remove. -/
def pyIsSpace (c : Char) : Bool :=
  c = ' ' || c = '\t' || c = '\n' || c = '\x0b' || c = '\x0c' || c = '\r'

/-- Python `str.strip`: remove leading and trailing whitespace. -/
def pyStrip (s : List Char) : List Char :=
  ((s.dropWhile pyIsSpace).reverse.dropWhile pyIsSpace).reverse

/-- Python `str.lstrip`: remove leading whitespace. -/
def pyLstrip (s : List Char) : List Char :=
  s.dropWhile pyIsSpace

/-- Python `str.lower`, applied characterwise (all characters relevant to the
marker search are ASCII). -/
def lowerStr (s : List Char) : List Char :=
  s.map Char.toLower

/-- `pat` occurs in `s` starting at position `i`. -/
def occursAt (s pat : List Char) (i : Nat) : Prop :=
  (s.drop i).take pat.length = pat

instance (s pat : List Char) (i : Nat) : Decidable (occursAt s pat i) := by
  unfold occursAt; exact inferInstance

/-- Python `str.rfind`: the index of the last occurrence of `pat` in `s`,
or `-1` if there is none. -/
def pyRfind (s pat : List Char) : Int :=
  match ((List.range (s.length + 1)).filter (fun i => decide (occursAt s pat i))).max? with
  | some i => (i : Int)
  | none => -1

/-- The opening marker used by the tag extractor (src/utils.py). -/
def opening_tag : List Char := "<final_script>".toList

/-- The closing marker used by the tag extractor (src/utils.py). -/
def closing_tag : List Char := "</final_script>".toList

/-- Embedding of `remove_thinking_tokens` from src/utils.py: find the last
case-insensitive occurrences of the opening and closing markers; on success
return the trimmed text strictly between them, otherwise the trimmed input
with a failure flag. -/
def remove_thinking_tokens (text : List Char) : List Char × Bool :=
  if text = [] then (text, false)
  else
    let lastOpen := pyRfind (lowerStr text) (lowerStr opening_tag)
    let lastClose := pyRfind (lowerStr text) (lowerStr closing_tag)
    if lastOpen ≠ -1 ∧ lastClose ≠ -1 ∧ lastClose > lastOpen then
      let startPos := lastOpen.toNat + opening_tag.length
      (pyStrip ((text.drop startPos).take (lastClose.toNat - startPos)), true)
    else
      (pyStrip text, false)

theorem occursAt_length {s pat : List Char} {i : Nat} (hpat : pat ≠ []) (h : occursAt s pat i) :
    i + pat.length ≤ s.length := by
  have hlen : ((s.drop i).take pat.length).length = pat.length := by rw [h]
  rw [List.length_take, List.length_drop] at hlen
  have hp : 0 < pat.length := List.length_pos.mpr hpat
  have hle : pat.length ≤ s.length - i := by
    rw [← hlen]; exact Nat.min_le_right _ _
  omega

/-- `i` is the position of the last occurrence of `pat` in `s` (positions of
occurrences of a nonempty pattern are bounded by `s.length`, so the bounded
quantifier loses nothing and keeps the predicate decidable). -/
def IsLastOccurrence (s pat : List Char) (i : Nat) : Prop :=
  occursAt s pat i ∧ ∀ j, j ≤ s.length → occursAt s pat j → j ≤ i

instance (s pat : List Char) (i : Nat) : Decidable (IsLastOccurrence s pat i) := by
  unfold IsLastOccurrence; exact inferInstance

theorem not_occursAt_nil {pat : List Char} (hpat : pat ≠ []) (i : Nat) :
    ¬ occursAt ([] : List Char) pat i := by
  intro h
  have h1 := occursAt_length hpat h
  have h2 : 0 < pat.length := List.length_pos.mpr hpat
  simp only [List.length_nil] at h1
  omega

theorem nat_max?_eq_some_iff {l : List Nat} {a : Nat} :
    l.max? = some a ↔ a ∈ l ∧ ∀ b ∈ l, b ≤ a :=
  List.max?_eq_some_iff (fun a => Nat.le_refl a) (fun a b => max_choice a b)
    (fun _ _ _ => Nat.max_le)

theorem mem_occFilter_iff {s pat : List Char} {i : Nat} :
    i ∈ (List.range (s.length + 1)).filter (fun j => decide (occursAt s pat j)) ↔
      i < s.length + 1 ∧ occursAt s pat i := by
  simp [List.mem_filter, List.mem_range]

/-- `pyRfind` either reports no occurrence at all, or the last occurrence. -/
theorem pyRfind_spec (s pat : List Char) :
    (pyRfind s pat = -1 ∧ ∀ j, j ≤ s.length → ¬ occursAt s pat j) ∨
    (∃ i : Nat, pyRfind s pat = (i : Int) ∧ IsLastOccurrence s pat i) := by
  rcases hm : ((List.range (s.length + 1)).filter
      (fun j => decide (occursAt s pat j))).max? with _ | i
  · left
    refine ⟨by unfold pyRfind; rw [hm], fun j hj hocc => ?_⟩
    have hmem : j ∈ (List.range (s.length + 1)).filter
        (fun j => decide (occursAt s pat j)) :=
      mem_occFilter_iff.mpr ⟨Nat.lt_succ_of_le hj, hocc⟩
    rw [List.max?_eq_none_iff.mp hm] at hmem
    exact absurd hmem (List.not_mem_nil j)
  · right
    rcases nat_max?_eq_some_iff.mp hm with ⟨hmem, hmax⟩
    rcases mem_occFilter_iff.mp hmem with ⟨_, hocc⟩
    exact ⟨i, by unfold pyRfind; rw [hm], hocc, fun j hj hoccj =>
      hmax j (mem_occFilter_iff.mpr ⟨Nat.lt_succ_of_le hj, hoccj⟩)⟩

theorem pyRfind_eq_of_isLast {s pat : List Char} {i : Nat} (hpat : pat ≠ [])
    (h : IsLastOccurrence s pat i) : pyRfind s pat = (i : Int) := by
  have hibound : i ≤ s.length := by
    have := occursAt_length hpat h.1
    have := List.length_pos.mpr hpat
    omega
  rcases pyRfind_spec s pat with ⟨_, hnone⟩ | ⟨i', hEq, hLast⟩
  · exact absurd h.1 (hnone i hibound)
  · have hi'bound : i' ≤ s.length := by
      have := occursAt_length hpat hLast.1
      have := List.length_pos.mpr hpat
      omega
    have : i = i' :=
      Nat.le_antisymm (hLast.2 i hibound h.1) (h.2 i' hi'bound hLast.1)
    rw [hEq, this]

theorem opening_tag_ne_nil : opening_tag ≠ [] := by decide

theorem closing_tag_ne_nil : closing_tag ≠ [] := by decide

theorem lowerStr_opening_tag : lowerStr opening_tag = opening_tag := by decide

theorem lowerStr_closing_tag : lowerStr closing_tag = closing_tag := by decide

theorem pyStrip_nil : pyStrip ([] : List Char) = [] := rfl

/-- Claim C2: extraction succeeds iff both markers occur (case-insensitively)
and the last occurrence of the closing marker is strictly after the last
occurrence of the opening marker; on success the returned text is the trimmed
substring strictly between those last occurrences, and on failure it is the
trimmed original input. -/
theorem tag_extractor_contract (text : List Char) :
    ((remove_thinking_tokens text).2 = true ↔
      ∃ i j, IsLastOccurrence (lowerStr text) opening_tag i ∧
        IsLastOccurrence (lowerStr text) closing_tag j ∧ i < j)
    ∧ (∀ i j, IsLastOccurrence (lowerStr text) opening_tag i →
        IsLastOccurrence (lowerStr text) closing_tag j → i < j →
        (remove_thinking_tokens text).1
          = pyStrip ((text.drop (i + opening_tag.length)).take
              (j - (i + opening_tag.length))))
    ∧ ((remove_thinking_tokens text).2 = false →
        (remove_thinking_tokens text).1 = pyStrip text) := by
  by_cases hnil : text = []
  · subst hnil
    have hno : ∀ i, ¬ occursAt (lowerStr []) opening_tag i := by
      intro i
      have hl : lowerStr ([] : List Char) = [] := rfl
      rw [hl]
      exact not_occursAt_nil opening_tag_ne_nil i
    refine ⟨⟨fun h => absurd h (by simp [remove_thinking_tokens]), ?_⟩, ?_, ?_⟩
    · rintro ⟨i, j, hi, _, _⟩
      exact absurd hi.1 (hno i)
    · intro i j hi _ _
      exact absurd hi.1 (hno i)
    · intro _
      simp [remove_thinking_tokens, pyStrip_nil]
  · rw [show remove_thinking_tokens text =
        (if pyRfind (lowerStr text) (lowerStr opening_tag) ≠ -1 ∧
            pyRfind (lowerStr text) (lowerStr closing_tag) ≠ -1 ∧
            pyRfind (lowerStr text) (lowerStr closing_tag) >
              pyRfind (lowerStr text) (lowerStr opening_tag) then
          (pyStrip ((text.drop
              ((pyRfind (lowerStr text) (lowerStr opening_tag)).toNat +
                opening_tag.length)).take
              ((pyRfind (lowerStr text) (lowerStr closing_tag)).toNat -
                ((pyRfind (lowerStr text) (lowerStr opening_tag)).toNat +
                  opening_tag.length))), true)
        else (pyStrip text, false)) from by
      unfold remove_thinking_tokens; rw [if_neg hnil]]
    rw [lowerStr_opening_tag, lowerStr_closing_tag]
    rcases pyRfind_spec (lowerStr text) opening_tag with ⟨ho, hnoneo⟩ |
      ⟨io, hoEq, hoLast⟩
    · have hcond : ¬ (pyRfind (lowerStr text) opening_tag ≠ -1 ∧
          pyRfind (lowerStr text) closing_tag ≠ -1 ∧
          pyRfind (lowerStr text) closing_tag >
            pyRfind (lowerStr text) opening_tag) := by
        rw [ho]; simp
      rw [if_neg hcond]
      refine ⟨⟨fun h => absurd h (by simp), ?_⟩, ?_, fun _ => rfl⟩
      · rintro ⟨i, j, hi, _, _⟩
        have hib : i ≤ (lowerStr text).length := by
          have := occursAt_length opening_tag_ne_nil hi.1
          omega
        exact absurd hi.1 (hnoneo i hib)
      · intro i j hi _ _
        have hib : i ≤ (lowerStr text).length := by
          have := occursAt_length opening_tag_ne_nil hi.1
          omega
        exact absurd hi.1 (hnoneo i hib)
    · rcases pyRfind_spec (lowerStr text) closing_tag with ⟨hc, hnonec⟩ |
        ⟨ic, hcEq, hcLast⟩
      · have hcond : ¬ (pyRfind (lowerStr text) opening_tag ≠ -1 ∧
            pyRfind (lowerStr text) closing_tag ≠ -1 ∧
            pyRfind (lowerStr text) closing_tag >
              pyRfind (lowerStr text) opening_tag) := by
          rw [hc]; simp
        rw [if_neg hcond]
        refine ⟨⟨fun h => absurd h (by simp), ?_⟩, ?_, fun _ => rfl⟩
        · rintro ⟨i, j, _, hj, _⟩
          have hjb : j ≤ (lowerStr text).length := by
            have := occursAt_length closing_tag_ne_nil hj.1
            omega
          exact absurd hj.1 (hnonec j hjb)
        · intro i j _ hj _
          have hjb : j ≤ (lowerStr text).length := by
            have := occursAt_length closing_tag_ne_nil hj.1
            omega
          exact absurd hj.1 (hnonec j hjb)
      · by_cases hlt : io < ic
        · have hcond : pyRfind (lowerStr text) opening_tag ≠ -1 ∧
              pyRfind (lowerStr text) closing_tag ≠ -1 ∧
              pyRfind (lowerStr text) closing_tag >
                pyRfind (lowerStr text) opening_tag := by
            rw [hoEq, hcEq]
            refine ⟨by omega, by omega, by exact_mod_cast hlt⟩
          rw [if_pos hcond]
          refine ⟨⟨fun _ => ⟨io, ic, hoLast, hcLast, hlt⟩, fun _ => rfl⟩, ?_, ?_⟩
          · intro i j hi hj _
            have hio : i = io := by
              have h1 := pyRfind_eq_of_isLast opening_tag_ne_nil hi
              rw [hoEq] at h1
              exact_mod_cast h1.symm
            have hjc : j = ic := by
              have h1 := pyRfind_eq_of_isLast closing_tag_ne_nil hj
              rw [hcEq] at h1
              exact_mod_cast h1.symm
            subst hio; subst hjc
            rw [hoEq, hcEq]
            simp [Int.toNat_natCast]
          · intro h
            exact absurd h (by simp)
        · have hcond : ¬ (pyRfind (lowerStr text) opening_tag ≠ -1 ∧
              pyRfind (lowerStr text) closing_tag ≠ -1 ∧
              pyRfind (lowerStr text) closing_tag >
                pyRfind (lowerStr text) opening_tag) := by
            rw [hoEq, hcEq]
            rintro ⟨_, _, hgt⟩
            exact hlt (by exact_mod_cast hgt)
          rw [if_neg hcond]
          refine ⟨⟨fun h => absurd h (by simp), ?_⟩, ?_, fun _ => rfl⟩
          · rintro ⟨i, j, hi, hj, hij⟩
            have hio : i = io := by
              have h1 := pyRfind_eq_of_isLast opening_tag_ne_nil hi
              rw [hoEq] at h1
              exact_mod_cast h1.symm
            have hjc : j = ic := by
              have h1 := pyRfind_eq_of_isLast closing_tag_ne_nil hj
              rw [hcEq] at h1
              exact_mod_cast h1.symm
            exact absurd (hio ▸ hjc ▸ hij) hlt
          · intro i j hi hj hij
            have hio : i = io := by
              have h1 := pyRfind_eq_of_isLast opening_tag_ne_nil hi
              rw [hoEq] at h1
              exact_mod_cast h1.symm
            have hjc : j = ic := by
              have h1 := pyRfind_eq_of_isLast closing_tag_ne_nil hj
              rw [hcEq] at h1
              exact_mod_cast h1.symm
            exact absurd (hio ▸ hjc ▸ hij) hlt

/-- Witness for claim C2 at a concrete input: the last occurrences in
`"<final_script>hi</final_script>"` are at 0 and 16, and the extracted text
is the substring between marker end and closing marker start. -/
theorem tag_extractor_contract_witness :
    (remove_thinking_tokens ("<final_script>hi</final_script>".toList)).1
      = pyStrip ((("<final_script>hi</final_script>".toList).drop
          (0 + opening_tag.length)).take (16 - (0 + opening_tag.length))) :=
  (tag_extractor_contract ("<final_script>hi</final_script>".toList)).2.1 0 16
    (by decide) (by decide) (by decide)

theorem lowerStr_length (s : List Char) : (lowerStr s).length = s.length := by
  simp [lowerStr]

theorem dropWhile_eq_drop (p : Char → Bool) (l : List Char) :
    l.dropWhile p = l.drop (l.takeWhile p).length := by
  have h := List.drop_left (l.takeWhile p) (l.dropWhile p)
  rw [List.takeWhile_append_dropWhile] at h
  exact h.symm

theorem occursAt_getElem {s pat : List Char} {k : Nat} (h : occursAt s pat k)
    {j : Nat} (hj : j < pat.length) : s[k + j]? = pat[j]? := by
  have h' : (s.drop k).take pat.length = pat := h
  have h1 : ((s.drop k).take pat.length)[j]? = pat[j]? := by rw [h']
  rw [List.getElem?_take_of_lt hj, List.getElem?_drop] at h1
  exact h1

theorem occursAt_take {y pat : List Char} {b k : Nat}
    (h : occursAt y pat k) (hb : k + pat.length ≤ b) : occursAt (y.take b) pat k := by
  have h' : (y.drop k).take pat.length = pat := h
  show ((y.take b).drop k).take pat.length = pat
  have hmin : pat.length ⊓ (b - k) = pat.length :=
    inf_eq_left.mpr (by omega : pat.length ≤ b - k)
  rw [List.drop_take, List.take_take, hmin]
  exact h'

theorem occursAt_of_take {y pat : List Char} {b k : Nat}
    (h : occursAt (y.take b) pat k) : occursAt y pat k := by
  have h' : ((y.take b).drop k).take pat.length = pat := h
  rw [List.drop_take, List.take_take] at h'
  have hl := congrArg List.length h'
  rw [List.length_take, List.length_drop] at hl
  have h2 : pat.length ⊓ (b - k) = pat.length := by
    have ha : pat.length ≤ pat.length ⊓ (b - k) :=
      le_trans (le_of_eq hl.symm) inf_le_left
    exact le_antisymm inf_le_left ha
  rw [h2] at h'
  exact h'

theorem occursAt_of_drop {y pat : List Char} {a k : Nat}
    (h : occursAt (y.drop a) pat k) : occursAt y pat (a + k) := by
  have h' : ((y.drop a).drop k).take pat.length = pat := h
  rw [List.drop_drop] at h'
  exact h'

theorem drop_append_ge {x y : List Char} {n : Nat} (h : x.length ≤ n) :
    (x ++ y).drop n = y.drop (n - x.length) := by
  conv_lhs => rw [show n = x.length + (n - x.length) by omega]
  rw [← List.drop_drop, List.drop_left]

/-- An occurrence in a concatenation lies in the left part, lies in the right
part, or straddles the boundary. -/
theorem occursAt_append_cases {x y pat : List Char} {k : Nat}
    (h : occursAt (x ++ y) pat k) :
    (k + pat.length ≤ x.length ∧ occursAt x pat k) ∨
    (x.length ≤ k ∧ occursAt y pat (k - x.length)) ∨
    (k < x.length ∧ x.length < k + pat.length) := by
  by_cases h1 : k + pat.length ≤ x.length
  · left
    refine ⟨h1, ?_⟩
    have h2 : occursAt ((x ++ y).take x.length) pat k := occursAt_take h h1
    rwa [List.take_left] at h2
  · by_cases h2 : x.length ≤ k
    · right; left
      refine ⟨h2, ?_⟩
      have h' : ((x ++ y).drop k).take pat.length = pat := h
      rw [drop_append_ge h2] at h'
      exact h'
    · right; right
      omega

theorem opening_tag_getElem_ne_lt :
    ∀ j, j < 14 → 1 ≤ j → opening_tag[j]? ≠ some '<' := by decide

theorem closing_tag_getElem_ne_lt :
    ∀ j, j < 15 → 1 ≤ j → closing_tag[j]? ≠ some '<' := by decide

theorem opening_tag_get0 : opening_tag[0]? = some '<' := by decide

theorem closing_tag_get0 : closing_tag[0]? = some '<' := by decide

theorem not_occursAt_closing_opening :
    ∀ k, k ≤ 1 → ¬ occursAt closing_tag opening_tag k := by decide

/-- In `opening_tag ++ (L ++ closing_tag)` with no occurrence of the opening
marker inside `L`, the opening marker occurs only at position 0. -/
theorem open_occ_in_wrapped {L : List Char}
    (hopen : ∀ i, ¬ occursAt L opening_tag i) {k : Nat}
    (h : occursAt (opening_tag ++ (L ++ closing_tag)) opening_tag k) : k = 0 := by
  have hol : opening_tag.length = 14 := by decide
  have hcl : closing_tag.length = 15 := by decide
  rcases occursAt_append_cases h with ⟨hb, _⟩ | ⟨hb, h1⟩ | ⟨hb1, hb2⟩
  · omega
  · exfalso
    rcases occursAt_append_cases h1 with ⟨_, h2⟩ | ⟨hb2, h2⟩ | ⟨hb2, hb3⟩
    · exact hopen _ h2
    · have hlen := occursAt_length opening_tag_ne_nil h2
      have hk : k - opening_tag.length - L.length ≤ 1 := by omega
      exact not_occursAt_closing_opening _ hk h2
    · have hj : L.length - (k - opening_tag.length) < opening_tag.length := by omega
      have hc := occursAt_getElem h1 hj
      rw [show k - opening_tag.length + (L.length - (k - opening_tag.length))
          = L.length by omega] at hc
      rw [List.getElem?_append_right (le_refl L.length), Nat.sub_self,
        closing_tag_get0] at hc
      exact opening_tag_getElem_ne_lt _ (by omega) (by omega) hc.symm
  · exfalso
    have hk1 : 1 ≤ k := by omega
    have hc := occursAt_getElem h (show 0 < opening_tag.length by omega)
    rw [Nat.add_zero, List.getElem?_append_left hb1, opening_tag_get0] at hc
    exact opening_tag_getElem_ne_lt k (by omega) hk1 hc

/-- In `opening_tag ++ (L ++ closing_tag)` with no occurrence of the closing
marker inside `L`, the closing marker occurs only right after `L`. -/
theorem close_occ_in_wrapped {L : List Char}
    (hclose : ∀ i, ¬ occursAt L closing_tag i) {k : Nat}
    (h : occursAt (opening_tag ++ (L ++ closing_tag)) closing_tag k) :
    k = opening_tag.length + L.length := by
  have hol : opening_tag.length = 14 := by decide
  have hcl : closing_tag.length = 15 := by decide
  rcases occursAt_append_cases h with ⟨hb, _⟩ | ⟨hb, h1⟩ | ⟨hb1, hb2⟩
  · omega
  · rcases occursAt_append_cases h1 with ⟨_, h2⟩ | ⟨hb2, h2⟩ | ⟨hb2, hb3⟩
    · exact absurd h2 (hclose _)
    · have hlen := occursAt_length closing_tag_ne_nil h2
      omega
    · exfalso
      have hj : L.length - (k - opening_tag.length) < closing_tag.length := by omega
      have hc := occursAt_getElem h1 hj
      rw [show k - opening_tag.length + (L.length - (k - opening_tag.length))
          = L.length by omega] at hc
      rw [List.getElem?_append_right (le_refl L.length), Nat.sub_self,
        closing_tag_get0] at hc
      exact closing_tag_getElem_ne_lt _ (by omega) (by omega) hc.symm
  · exfalso
    by_cases hk : k = 0
    · subst hk
      have hc := occursAt_getElem h (show 1 < closing_tag.length by omega)
      rw [Nat.zero_add, List.getElem?_append_left (by omega : 1 < opening_tag.length)] at hc
      revert hc
      decide
    · have hk1 : 1 ≤ k := by omega
      have hc := occursAt_getElem h (show 0 < closing_tag.length by omega)
      rw [Nat.add_zero, List.getElem?_append_left hb1, closing_tag_get0] at hc
      exact opening_tag_getElem_ne_lt k (by omega) hk1 hc

/-- Unfolding of `remove_thinking_tokens` on nonempty input. -/
theorem remove_thinking_tokens_ne_nil (text : List Char) (hnil : text ≠ []) :
    remove_thinking_tokens text =
      (if pyRfind (lowerStr text) opening_tag ≠ -1 ∧
          pyRfind (lowerStr text) closing_tag ≠ -1 ∧
          pyRfind (lowerStr text) closing_tag > pyRfind (lowerStr text) opening_tag then
        (pyStrip ((text.drop
            ((pyRfind (lowerStr text) opening_tag).toNat + opening_tag.length)).take
            ((pyRfind (lowerStr text) closing_tag).toNat -
              ((pyRfind (lowerStr text) opening_tag).toNat + opening_tag.length))), true)
      else (pyStrip text, false)) := by
  unfold remove_thinking_tokens
  rw [if_neg hnil, lowerStr_opening_tag, lowerStr_closing_tag]

/-- If the last marker occurrences are at `i` and `j` with `i < j`, extraction
succeeds and returns the trimmed text strictly between them. -/
theorem remove_thinking_tokens_of_isLast {text : List Char} {i j : Nat}
    (hi : IsLastOccurrence (lowerStr text) opening_tag i)
    (hj : IsLastOccurrence (lowerStr text) closing_tag j) (hij : i < j) :
    remove_thinking_tokens text =
      (pyStrip ((text.drop (i + opening_tag.length)).take
        (j - (i + opening_tag.length))), true) := by
  have hnil : text ≠ [] := by
    intro hn
    have h0 := hi.1
    rw [hn] at h0
    have hl : lowerStr ([] : List Char) = [] := rfl
    rw [hl] at h0
    exact not_occursAt_nil opening_tag_ne_nil i h0
  have ho := pyRfind_eq_of_isLast opening_tag_ne_nil hi
  have hc := pyRfind_eq_of_isLast closing_tag_ne_nil hj
  rw [remove_thinking_tokens_ne_nil text hnil, ho, hc,
    if_pos ⟨by omega, by omega, by exact_mod_cast hij⟩]
  simp [Int.toNat_natCast]

/-- Inversion of a successful extraction: it is governed by the last marker
occurrences. -/
theorem remove_thinking_tokens_success_inv {text : List Char}
    (h : (remove_thinking_tokens text).2 = true) :
    ∃ i j : Nat, IsLastOccurrence (lowerStr text) opening_tag i ∧
      IsLastOccurrence (lowerStr text) closing_tag j ∧ i < j ∧
      (remove_thinking_tokens text).1 =
        pyStrip ((text.drop (i + opening_tag.length)).take
          (j - (i + opening_tag.length))) := by
  by_cases hnil : text = []
  · subst hnil
    exact absurd h (by simp [remove_thinking_tokens])
  · rcases pyRfind_spec (lowerStr text) opening_tag with ⟨ho, _⟩ | ⟨i, hoEq, hoLast⟩
    · rw [remove_thinking_tokens_ne_nil text hnil, ho] at h
      simp at h
    · rcases pyRfind_spec (lowerStr text) closing_tag with ⟨hc, _⟩ | ⟨j, hcEq, hcLast⟩
      · rw [remove_thinking_tokens_ne_nil text hnil, hc] at h
        simp at h
      · by_cases hij : i < j
        · refine ⟨i, j, hoLast, hcLast, hij, ?_⟩
          rw [remove_thinking_tokens_of_isLast hoLast hcLast hij]
        · rw [remove_thinking_tokens_ne_nil text hnil, hoEq, hcEq] at h
          rw [if_neg (by
            rintro ⟨_, _, hgt⟩
            exact hij (by exact_mod_cast hgt))] at h
          simp at h

/-- `pyStrip` returns a contiguous piece of its input. -/
theorem pyStrip_eq_drop_take (s : List Char) :
    ∃ a b, pyStrip s = (s.drop a).take b := by
  refine ⟨(s.takeWhile pyIsSpace).length,
    (s.dropWhile pyIsSpace).length -
      ((s.dropWhile pyIsSpace).reverse.takeWhile pyIsSpace).length, ?_⟩
  unfold pyStrip
  rw [dropWhile_eq_drop pyIsSpace ((s.dropWhile pyIsSpace).reverse),
    List.drop_reverse, List.reverse_reverse, dropWhile_eq_drop pyIsSpace s]

/-- Claim C4: for every string `S` with no case-insensitive occurrence of
either marker token, extracting from `beginMarker ++ S ++ endMarker` returns
`(S stripped of leading and trailing whitespace, true)`. -/
theorem tag_extractor_round_trip (S : List Char)
    (hopen : ∀ i, i ≤ S.length → ¬ occursAt (lowerStr S) opening_tag i)
    (hclose : ∀ i, i ≤ S.length → ¬ occursAt (lowerStr S) closing_tag i) :
    remove_thinking_tokens (opening_tag ++ S ++ closing_tag) = (pyStrip S, true) := by
  have hol : opening_tag.length = 14 := by decide
  have hopen' : ∀ i, ¬ occursAt (lowerStr S) opening_tag i := by
    intro i hocc
    have hb := occursAt_length opening_tag_ne_nil hocc
    rw [lowerStr_length] at hb
    exact hopen i (by omega) hocc
  have hclose' : ∀ i, ¬ occursAt (lowerStr S) closing_tag i := by
    intro i hocc
    have hb := occursAt_length closing_tag_ne_nil hocc
    rw [lowerStr_length] at hb
    exact hclose i (by omega) hocc
  have htext : lowerStr (opening_tag ++ S ++ closing_tag)
      = opening_tag ++ (lowerStr S ++ closing_tag) := by
    show List.map Char.toLower (opening_tag ++ S ++ closing_tag)
      = opening_tag ++ (lowerStr S ++ closing_tag)
    rw [List.map_append, List.map_append,
      show List.map Char.toLower opening_tag = opening_tag from lowerStr_opening_tag,
      show List.map Char.toLower closing_tag = closing_tag from lowerStr_closing_tag,
      List.append_assoc]
    rfl
  have hoLast : IsLastOccurrence (lowerStr (opening_tag ++ S ++ closing_tag))
      opening_tag 0 := by
    constructor
    · show ((lowerStr (opening_tag ++ S ++ closing_tag)).drop 0).take
        opening_tag.length = opening_tag
      rw [htext, List.drop_zero, List.take_left]
    · intro j _ hocc
      rw [htext] at hocc
      exact Nat.le_of_eq (open_occ_in_wrapped hopen' hocc)
  have hcLast : IsLastOccurrence (lowerStr (opening_tag ++ S ++ closing_tag))
      closing_tag (opening_tag.length + S.length) := by
    constructor
    · show ((lowerStr (opening_tag ++ S ++ closing_tag)).drop
        (opening_tag.length + S.length)).take closing_tag.length = closing_tag
      rw [htext, drop_append_ge (by omega : opening_tag.length ≤
          opening_tag.length + S.length), Nat.add_sub_cancel_left,
        show S.length = (lowerStr S).length from (lowerStr_length S).symm,
        List.drop_left]
      exact List.take_length closing_tag
    · intro j _ hocc
      rw [htext] at hocc
      have hj := close_occ_in_wrapped hclose' hocc
      rw [lowerStr_length] at hj
      omega
  have harg : ((opening_tag ++ S ++ closing_tag).drop (0 + opening_tag.length)).take
      (opening_tag.length + S.length - (0 + opening_tag.length)) = S := by
    rw [Nat.zero_add, List.append_assoc, List.drop_left, Nat.add_sub_cancel_left,
      List.take_left]
  rw [remove_thinking_tokens_of_isLast hoLast hcLast (by omega), harg]

/-- Witness for claim C4 at the concrete payload `"  hello world "`. -/
theorem tag_extractor_round_trip_witness :
    remove_thinking_tokens (opening_tag ++ "  hello world ".toList ++ closing_tag)
      = (pyStrip ("  hello world ".toList), true) :=
  tag_extractor_round_trip ("  hello world ".toList) (by decide) (by decide)

/-- Claim C10: whenever extraction succeeds, the extracted text contains no
case-insensitive occurrence of the opening marker. -/
theorem extraction_result_no_opening_marker (text : List Char)
    (h : (remove_thinking_tokens text).2 = true) (i : Nat) :
    ¬ occursAt (lowerStr (remove_thinking_tokens text).1) opening_tag i := by
  intro hocc
  rcases remove_thinking_tokens_success_inv h with ⟨o, c, hoLast, _, _, hres⟩
  rw [hres] at hocc
  rcases pyStrip_eq_drop_take ((text.drop (o + opening_tag.length)).take
      (c - (o + opening_tag.length))) with ⟨a, b, hab⟩
  rw [hab] at hocc
  simp only [lowerStr, List.map_take, List.map_drop] at hocc
  have h1 := occursAt_of_take hocc
  have h2 := occursAt_of_drop h1
  have h3 := occursAt_of_take h2
  have h4 := occursAt_of_drop h3
  have hol : opening_tag.length = 14 := by decide
  have hbound := occursAt_length opening_tag_ne_nil h4
  have hle := hoLast.2 (o + opening_tag.length + (a + i)) (by
      have : (lowerStr text).length = (List.map Char.toLower text).length := rfl
      rw [this]
      omega) h4
  omega

/-- Witness for claim C10 at a concrete successful extraction. -/
theorem extraction_result_no_opening_marker_witness :
    ¬ occursAt (lowerStr (remove_thinking_tokens
        ("<final_script>x</final_script>".toList)).1) opening_tag 0 :=
  extraction_result_no_opening_marker ("<final_script>x</final_script>".toList)
    (by decide) 0

/-- Claim C3: the tag extractor uses the last (not first) occurrence of each
marker, case-insensitively: on the input
`"<final_script>A</final_script> noise <final_script>B</final_script>"` it
returns `("B", true)` (not `"A"`), and markers are also recognised in mixed
case. -/
theorem tag_extractor_last_occurrence :
    remove_thinking_tokens
        ("<final_script>A</final_script> noise <final_script>B</final_script>".toList)
      = ("B".toList, true)
    ∧ remove_thinking_tokens ("<FINAL_scrIpt>b</Final_Script>".toList) = ("b".toList, true) := by
  constructor <;> decide

/-- Chunk size constant from `split_content` in src/condenser_service.py. -/
def chunk_size : Nat := 10000

/-- Chunk overlap constant from `split_content` in src/condenser_service.py. -/
def chunk_overlap : Nat := 200

/-- Distance between the start positions of consecutive chunks. -/
def chunk_stride : Nat := chunk_size - chunk_overlap

/-- Modelled from the spec: `split_content` in src/condenser_service.py
delegates the actual chunking to the external langchain
`RecursiveCharacterTextSplitter`, whose implementation is not part of the
repository sources.  Following spec section 4.1, chunking is modelled as
cutting chunks of at most `chunk_size` characters starting every
`chunk_stride = chunk_size - chunk_overlap` characters, so that consecutive
chunks share exactly `chunk_overlap` characters and the final chunk may be
shorter. -/
def splitFrom (content : List Char) (p : Nat) : List (List Char) :=
  if content.length - p ≤ chunk_size then [content.drop p]
  else (content.drop p).take chunk_size :: splitFrom content (p + chunk_stride)
termination_by content.length - p
decreasing_by
  simp only [chunk_size, chunk_overlap, chunk_stride] at *
  omega

/-- Modelled from the spec: the chunker entry point, see `splitFrom`. -/
def split_content (content : List Char) : List (List Char) :=
  splitFrom content 0

theorem chunk_stride_pos : 0 < chunk_stride := by decide

/-- Every chunk produced by `splitFrom` is at most `chunk_size` long. -/
theorem splitFrom_chunk_le (content : List Char) :
    ∀ n p, content.length - p ≤ n →
      ∀ c ∈ splitFrom content p, c.length ≤ chunk_size := by
  intro n
  induction n with
  | zero =>
    intro p hp c hc
    rw [splitFrom, if_pos (by omega)] at hc
    rcases List.mem_singleton.mp hc with rfl
    rw [List.length_drop]
    omega
  | succ n ih =>
    intro p hp c hc
    by_cases hcnd : content.length - p ≤ chunk_size
    · rw [splitFrom, if_pos hcnd] at hc
      rcases List.mem_singleton.mp hc with rfl
      rw [List.length_drop]
      omega
    · rw [splitFrom, if_neg hcnd] at hc
      rcases List.mem_cons.mp hc with rfl | hc
      · rw [List.length_take]
        exact inf_le_left
      · refine ih (p + chunk_stride) ?_ c hc
        have := chunk_stride_pos
        omega

/-- Chunk `i` of `splitFrom content p` starts at position `p + chunk_stride * i`. -/
theorem splitFrom_getD (content : List Char) :
    ∀ n p i, content.length - p ≤ n →
      i < (splitFrom content p).length →
      (splitFrom content p).getD i []
        = (content.drop (p + chunk_stride * i)).take chunk_size := by
  intro n
  induction n with
  | zero =>
    intro p i hp hi
    rw [splitFrom, if_pos (by omega)] at hi ⊢
    simp only [List.length_singleton] at hi
    interval_cases i
    rw [List.getD_cons_zero, Nat.mul_zero, Nat.add_zero]
    exact (List.take_of_length_le (by rw [List.length_drop]; omega)).symm
  | succ n ih =>
    intro p i hp hi
    by_cases hcnd : content.length - p ≤ chunk_size
    · rw [splitFrom, if_pos hcnd] at hi ⊢
      simp only [List.length_singleton] at hi
      interval_cases i
      rw [List.getD_cons_zero, Nat.mul_zero, Nat.add_zero]
      exact (List.take_of_length_le (by rw [List.length_drop]; omega)).symm
    · rw [splitFrom, if_neg hcnd] at hi ⊢
      cases i with
      | zero =>
        rw [List.getD_cons_zero, Nat.mul_zero, Nat.add_zero]
      | succ i =>
        rw [List.getD_cons_succ]
        rw [List.length_cons] at hi
        have hstep : content.length - (p + chunk_stride) ≤ n := by
          have := chunk_stride_pos
          omega
        rw [ih (p + chunk_stride) i hstep (by omega)]
        have harith : p + chunk_stride + chunk_stride * i
            = p + chunk_stride * (i + 1) := by ring
        rw [harith]

/-- All chunks before the final one cover a full `chunk_size` window. -/
theorem splitFrom_full (content : List Char) :
    ∀ n p i, content.length - p ≤ n →
      i + 1 < (splitFrom content p).length →
      chunk_size < content.length - (p + chunk_stride * i) := by
  intro n
  induction n with
  | zero =>
    intro p i hp hi
    rw [splitFrom, if_pos (by omega)] at hi
    simp at hi
  | succ n ih =>
    intro p i hp hi
    by_cases hcnd : content.length - p ≤ chunk_size
    · rw [splitFrom, if_pos hcnd] at hi
      simp at hi
    · rw [splitFrom, if_neg hcnd, List.length_cons] at hi
      cases i with
      | zero =>
        simp only [Nat.mul_zero, Nat.add_zero]
        omega
      | succ i =>
        have hstep : content.length - (p + chunk_stride) ≤ n := by
          have := chunk_stride_pos
          omega
        have := ih (p + chunk_stride) i hstep (by omega)
        have harith : p + chunk_stride + chunk_stride * i
            = p + chunk_stride * (i + 1) := by ring
        rw [harith] at this
        exact this

/-- Every position of the input is covered by some chunk. -/
theorem splitFrom_cover (content : List Char) :
    ∀ n p j, content.length - p ≤ n →
      p ≤ j → j < content.length →
      ∃ i, i < (splitFrom content p).length ∧
        p + chunk_stride * i ≤ j ∧
        j < p + chunk_stride * i + ((splitFrom content p).getD i []).length := by
  intro n
  induction n with
  | zero =>
    intro p j hp hpj hj
    omega
  | succ n ih =>
    intro p j hp hpj hj
    by_cases hcnd : content.length - p ≤ chunk_size
    · refine ⟨0, ?_, ?_, ?_⟩
      · rw [splitFrom, if_pos hcnd]
        simp
      · omega
      · rw [splitFrom, if_pos hcnd, Nat.mul_zero, Nat.add_zero,
          List.getD_cons_zero, List.length_drop]
        omega
    · by_cases hj0 : j < p + chunk_size
      · refine ⟨0, ?_, ?_, ?_⟩
        · rw [splitFrom, if_neg hcnd, List.length_cons]
          omega
        · omega
        · rw [splitFrom, if_neg hcnd, Nat.mul_zero, Nat.add_zero,
            List.getD_cons_zero, List.length_take, List.length_drop]
          omega
      · have hstep : content.length - (p + chunk_stride) ≤ n := by
          have := chunk_stride_pos
          omega
        have hstride_le : chunk_stride ≤ chunk_size := by decide
        rcases ih (p + chunk_stride) j hstep (by omega) hj with ⟨i, hi, hlo, hhi⟩
        refine ⟨i + 1, ?_, ?_, ?_⟩
        · rw [splitFrom, if_neg hcnd, List.length_cons]
          omega
        · have harith : p + chunk_stride * (i + 1)
              = p + chunk_stride + chunk_stride * i := by ring
          omega
        · have harith : p + chunk_stride * (i + 1)
              = p + chunk_stride + chunk_stride * i := by ring
          have hgetD : (splitFrom content p).getD (i + 1) []
              = (splitFrom content (p + chunk_stride)).getD i [] := by
            rw [splitFrom, if_neg hcnd, List.getD_cons_succ]
          rw [hgetD]
          omega

/-- Claim C6 (spec-modelled chunker): if the input length is at most
`chunk_size` (10000), the chunker returns exactly one chunk, equal to the
whole input. -/
theorem chunker_degenerate (T : List Char) (h : T.length ≤ chunk_size) :
    split_content T = [T] := by
  unfold split_content
  rw [splitFrom, if_pos (by omega), List.drop_zero]

/-- Witness for claim C6 at a concrete short input. -/
theorem chunker_degenerate_witness : split_content ("abc".toList) = ["abc".toList] :=
  chunker_degenerate ("abc".toList) (by decide)

/-- Claim C5 (spec-modelled chunker): no chunk exceeds `chunk_size`; every
chunk is the window of the input starting at `chunk_stride * i`; consecutive
chunks share exactly `chunk_overlap` trailing/leading characters (every
non-final chunk is full); every character of the input appears in some chunk;
and non-adjacent chunks cover disjoint position ranges. -/
theorem chunker_invariants (T : List Char) :
    (∀ c ∈ split_content T, c.length ≤ chunk_size)
    ∧ (∀ i, i < (split_content T).length →
        (split_content T).getD i [] = (T.drop (chunk_stride * i)).take chunk_size)
    ∧ (∀ i, i + 1 < (split_content T).length →
        ((split_content T).getD i []).length = chunk_size ∧
        chunk_overlap ≤ ((split_content T).getD (i + 1) []).length ∧
        ((split_content T).getD i []).drop (chunk_size - chunk_overlap)
          = ((split_content T).getD (i + 1) []).take chunk_overlap)
    ∧ (∀ j, j < T.length → ∃ i, i < (split_content T).length ∧
        ∃ d, d < ((split_content T).getD i []).length ∧
          chunk_stride * i + d = j ∧ ((split_content T).getD i [])[d]? = T[j]?)
    ∧ (∀ i k, i + 2 ≤ k → k < (split_content T).length →
        chunk_stride * i + ((split_content T).getD i []).length ≤ chunk_stride * k) := by
  have hgetD : ∀ i, i < (split_content T).length →
      (split_content T).getD i [] = (T.drop (chunk_stride * i)).take chunk_size := by
    intro i hi
    have h := splitFrom_getD T T.length 0 i (by omega) hi
    rw [Nat.zero_add] at h
    exact h
  have hfull : ∀ i, i + 1 < (split_content T).length →
      chunk_size < T.length - chunk_stride * i := by
    intro i hi
    have h := splitFrom_full T T.length 0 i (by omega) hi
    rw [Nat.zero_add] at h
    exact h
  have hlen : ∀ i, i < (split_content T).length →
      ((split_content T).getD i []).length
        = chunk_size ⊓ (T.length - chunk_stride * i) := by
    intro i hi
    rw [hgetD i hi, List.length_take, List.length_drop]
  refine ⟨?_, hgetD, ?_, ?_, ?_⟩
  · exact splitFrom_chunk_le T T.length 0 (by omega)
  · intro i hi
    have hf := hfull i hi
    have hilen := hlen i (by omega)
    have hi1len := hlen (i + 1) hi
    refine ⟨?_, ?_, ?_⟩
    · rw [hilen]
      omega
    · rw [hi1len]
      have harith : chunk_stride * (i + 1) = chunk_stride * i + chunk_stride := by ring
      have hstride_lt : chunk_stride < chunk_size := by decide
      have hover : chunk_overlap ≤ chunk_size := by decide
      have hso : chunk_size - chunk_stride = chunk_overlap := by decide
      omega
    · rw [hgetD i (by omega), hgetD (i + 1) hi]
      rw [List.drop_take, List.drop_drop]
      have h1 : chunk_size - (chunk_size - chunk_overlap) = chunk_overlap := by decide
      have h2 : chunk_stride * i + (chunk_size - chunk_overlap)
          = chunk_stride * (i + 1) := by
        have : chunk_size - chunk_overlap = chunk_stride := rfl
        rw [this]
        ring
      rw [h1, h2, List.take_take, inf_eq_left.mpr (by decide : chunk_overlap ≤ chunk_size)]
  · intro j hj
    rcases splitFrom_cover T T.length 0 j (by omega) (by omega) hj with ⟨i, hi, hlo, hhi⟩
    rw [Nat.zero_add] at hlo hhi
    rw [show splitFrom T 0 = split_content T from rfl] at hi hhi
    have hL := hlen i hi
    refine ⟨i, hi, j - chunk_stride * i, by omega, by omega, ?_⟩
    rw [hgetD i hi]
    rw [List.getElem?_take_of_lt (by rw [hL] at hhi; omega)]
    rw [List.getElem?_drop]
    congr 1
    omega
  · intro i k hik hk
    have hle : ((split_content T).getD i []).length ≤ chunk_size := by
      rw [hlen i (by omega)]
      exact inf_le_left
    have h2 : chunk_size ≤ 2 * chunk_stride := by decide
    have h3 : chunk_stride * (i + 2) ≤ chunk_stride * k :=
      Nat.mul_le_mul_left chunk_stride hik
    calc chunk_stride * i + ((split_content T).getD i []).length
        ≤ chunk_stride * i + 2 * chunk_stride := by omega
      _ = chunk_stride * (i + 2) := by ring
      _ ≤ chunk_stride * k := h3

/-- Witness for claim C5: its coverage clause applied to a concrete input. -/
theorem chunker_invariants_witness :
    ∃ i, i < (split_content ("ab".toList)).length ∧
      ∃ d, d < ((split_content ("ab".toList)).getD i []).length ∧
        chunk_stride * i + d = 0 ∧
        ((split_content ("ab".toList)).getD i [])[d]? = ("ab".toList)[0]? :=
  (chunker_invariants ("ab".toList)).2.2.2.1 0 (by decide)

/-- Python `str.replace`: replace all nonoverlapping occurrences of `old`
left to right (for empty `old`, Python inserts `new` at every gap).  The
recursion is fuelled; `s.length + 1` units always suffice. -/
def pyReplaceAux (old new : List Char) : Nat → List Char → List Char
  | 0, s => s
  | fuel + 1, s =>
    if old ≠ [] ∧ old.isPrefixOf s then
      new ++ pyReplaceAux old new fuel (s.drop old.length)
    else
      match s with
      | [] => if old = [] then new else []
      | c :: rest => (if old = [] then new ++ [c] else [c]) ++ pyReplaceAux old new fuel rest

/-- Python `s.replace(old, new)`. -/
def pyReplace (s old new : List Char) : List Char :=
  pyReplaceAux old new (s.length + 1) s

/-- The `yt_transcript_shortener_system_message` literal from
src/system_prompts.py. -/
def yt_transcript_shortener_system_message : List Char :=
  ("# ROLE\nYou are a Professional Narrative Scriptwriter. Your expertise is in \"Lossless Narrative Compression\"—taking messy oral transcripts and transforming them into polished, high-density broadcast scripts.\n\n# CORE RULES (NON-NEGOTIABLE)\n1. OUTPUT FORMAT: Pure, continuous narrative prose. No bullet points, no headers, no bold text (**), and no markdown.\n2. NARRATIVE VOICE: Use a single, authoritative narrator. Convert all speakers/dialogue into this unified voice.\n3. SILENT CORRECTION: Fix ASR/phonetic errors and remove all verbal disfluencies (ums, ahs, repetitions, filler phrases).\n4. ANTI-HALUCINATION: Do not add \"Thank you,\" \"I hope this helps,\" or any meta-commentary.\n5. LENGTH TARGET: Aim for 25% of the input length. If the input is low-signal, you may go lower, but never add filler to \"pad\" the length.").toList

/-- The `map_prompt` literal from src/system_prompts.py. -/
def map_prompt : List Char :=
  ("# TASK: HIGH-DENSITY NARRATIVE MAPPING\n        You are transforming a segment of a larger transcript into a high-fidelity narrative script for a professional narrator.\n        \n        # CONSTRAINTS\n        1. SIZE RETENTION (25%+): Do not over-summarize. Retain at least 25% of the word count. If the source is dense with facts, keep them all.\n        2. TTS FLOW: Use \"oral transitions\" (e.g., \"Moving on,\" \"Crucially,\" \"This leads to\"). Use only clean text; NO markdown symbols (*, #, _, -).\n        3. FIDELITY: Never omit technical terms, specific numbers, or proper names. Convert dialogue into a seamless third-person narrative.\n        4. ANTI-HALLUCINATION: Output only what is present in the text. Do not add \"Thank you,\" \"Here is the version,\" or any conclusion. \n        \n        # OUTPUT PROTOCOL (CRITICAL)\n        - SINGLE VERSION ONLY: Provide exactly the final version of the script.\n        - NO META-TEXT: Do not explain your changes or give options.\n        - WRAP OUTPUT: Place your entire final script inside <final_script> tags.\n        \n        INPUT SEGMENT:\n        \"{chunk_text}\"\n        \n        [REASONING PROCESS: Perform extraction and refinement internally]\n        \n        FINAL NARRATIVE SCRIPT:\n        <final_script>\n        (Start directly with the narrative here)").toList

/-- The `reduce_prompt` literal from src/system_prompts.py. -/
def reduce_prompt : List Char :=
  ("# TASK: LEAD NARRATIVE EDITOR\n        You are the final gatekeeper for a high-stakes broadcast script. Your job is to stitch intermediate segments into a single, seamless, high-density masterpiece.\n        \n        # CORE OBJECTIVES\n        1. SEAMLESSNESS: Identify and remove \"overlap\" where two segments share the same concluding/starting thoughts. \n        2. NARRATIVE MOMENTUM: Ensure the story flows logically from Segment A to Segment B without \"hiccups\" or \"jumps.\"\n        3. 25% DENSITY CHECK: The final output must maintain at least 25% of the cumulative detail. Do not over-condense; preserve specific facts, names, and technical data.\n        4. ZERO MARKUP: This is a teleprompter script. Remove all bolding (**), italics, hashtags (#), or markdown symbols. Use clean, plain text only.\n        \n        # TTS OPTIMIZATION\n        - PHONETIC CLARITY: Use phonetic spelling for difficult acronyms if necessary (e.g., \"S-E-O\" or \"Search Engine Optimization\").\n        \n        # OUTPUT PROTOCOL (CRITICAL)\n        - SINGLE VERSION ONLY: Provide exactly one, final, polished version of the script.\n        - NO META-TEXT: Do not explain your editing choices, do not say \"I have stitched the segments,\" and do not provide multiple options.\n        - WRAP OUTPUT: Place your entire final script inside <final_script> tags.\n        \n        REFINED SEGMENTS TO STITCH:\n        \"{combined_map_results}\"\n        \n        [INTERNAL PROCESSING: Identify overlaps and smooth transitions]\n        \n        FINAL BROADCAST SCRIPT:\n        <final_script>\n        (Start directly with the narrative here)").toList

/-- The prompt assembled for one MAP call: the f-string of `condense_content`
with `{chunk_text}` substituted by the chunk. -/
def mapInput (chunk : List Char) : List Char :=
  "\n            System:\n            ".toList
    ++ yt_transcript_shortener_system_message
    ++ "\n            Input:\n            ".toList
    ++ pyReplace map_prompt ("{chunk_text}".toList) chunk
    ++ "\n        ".toList

/-- The prompt assembled for the REDUCE call: the f-string of
`condense_content` with `{combined_map_results}` substituted by the combined
map results. -/
def reduceInput (combined : List Char) : List Char :=
  "\n            System:\n            ".toList
    ++ yt_transcript_shortener_system_message
    ++ "\n            Input:\n            ".toList
    ++ pyReplace reduce_prompt ("{combined_map_results}".toList) combined
    ++ "\n        ".toList

/-- The MAP failure message of `condense_content`, naming the 1-based index
of the failing chunk and the total chunk count. -/
def mapErrorMsg (idx total : Nat) : List Char :=
  "Failed to remove thinking tokens from MAP chunk ".toList
    ++ (toString idx).toList ++ "/".toList ++ (toString total).toList

/-- The REDUCE failure message of `condense_content`. -/
def reduceErrorMsg : List Char :=
  "Failed to remove thinking tokens from REDUCE phase".toList

/-- Accumulation of a streamed LLM response: the fragments are concatenated
in arrival order (the streaming loops of `condense_content`). -/
def accumulateStream (frags : List (List Char)) : List Char :=
  frags.flatten

/-- The separator joining processed chunks before the REDUCE call. -/
def chunk_separator : List Char := "\n\n---\n\n".toList

/-- Result of the MAP loop: the prompts issued, and either the ordered
processed chunks or the raised error message. -/
structure StageResult where
  calls : List (List Char)
  outcome : Except (List Char) (List (List Char))

/-- Embedding of the MAP loop of `condense_content`
(src/condenser_service.py): process chunks in order with 1-based index `idx`;
each chunk issues one streaming call, and the first extraction failure raises
the error, recording which prompts were issued. -/
def mapPhase (model : List Char → List (List Char)) (total : Nat) :
    Nat → List (List Char) → StageResult
  | _, [] => ⟨[], .ok []⟩
  | idx, chunk :: rest =>
    let prompt := mapInput chunk
    let response := accumulateStream (model prompt)
    let r := remove_thinking_tokens response
    if r.2 then
      let tail := mapPhase model total (idx + 1) rest
      ⟨prompt :: tail.calls, tail.outcome.map (fun l => r.1 :: l)⟩
    else
      ⟨[prompt], .error (mapErrorMsg idx total)⟩

/-- Result of a pipeline run: the prompts issued, and either the final script
or the raised error message. -/
structure PipelineResult where
  calls : List (List Char)
  outcome : Except (List Char) (List Char)

/-- Embedding of `condense_content` (src/condenser_service.py) on an already
chunked input: run the MAP loop; on success join the processed chunks with
`chunk_separator`, issue the single REDUCE call, and extract the final
script. -/
def condense_from_chunks (model : List Char → List (List Char))
    (chunks : List (List Char)) : PipelineResult :=
  let m := mapPhase model chunks.length 1 chunks
  match m.outcome with
  | .error e => ⟨m.calls, .error e⟩
  | .ok processed =>
    let rPrompt := reduceInput (List.intercalate chunk_separator processed)
    let r := remove_thinking_tokens (accumulateStream (model rPrompt))
    if r.2 then ⟨m.calls ++ [rPrompt], .ok r.1⟩
    else ⟨m.calls ++ [rPrompt], .error reduceErrorMsg⟩

/-- Embedding of `condense_content` on raw content (chunking spec-modelled,
see `split_content`). -/
def condense_content (content : List Char)
    (model : List Char → List (List Char)) : PipelineResult :=
  condense_from_chunks model (split_content content)

/-- If every chunk of `pre` extracts successfully and `c` fails, the MAP loop
returns the fail-fast error and issued exactly the prompts of `pre` and `c`. -/
theorem mapPhase_fail (model : List Char → List (List Char)) (total : Nat) :
    ∀ (pre : List (List Char)) (c : List Char) (post : List (List Char)) (idx : Nat),
    (∀ d ∈ pre,
      (remove_thinking_tokens (accumulateStream (model (mapInput d)))).2 = true) →
    (remove_thinking_tokens (accumulateStream (model (mapInput c)))).2 = false →
    mapPhase model total idx (pre ++ c :: post)
      = ⟨pre.map mapInput ++ [mapInput c],
         .error (mapErrorMsg (idx + pre.length) total)⟩ := by
  intro pre
  induction pre with
  | nil =>
    intro c post idx _ hfail
    simp [mapPhase, hfail]
  | cons d pre ih =>
    intro c post idx hok hfail
    have hd := hok d (List.mem_cons_self d pre)
    have htail := ih c post (idx + 1)
      (fun e he => hok e (List.mem_cons_of_mem d he)) hfail
    have harith : idx + 1 + pre.length = idx + (pre.length + 1) := by omega
    simp only [List.cons_append, mapPhase, List.append_eq, hd, if_true, htail,
      harith, List.length_cons, List.map_cons, Except.map]

/-- If every chunk extracts successfully, the MAP loop returns one processed
chunk per input chunk, in order, and issued exactly one prompt per chunk. -/
theorem mapPhase_ok (model : List Char → List (List Char)) (total : Nat) :
    ∀ (l : List (List Char)) (idx : Nat),
    (∀ d ∈ l,
      (remove_thinking_tokens (accumulateStream (model (mapInput d)))).2 = true) →
    mapPhase model total idx l
      = ⟨l.map mapInput,
         .ok (l.map (fun d =>
           (remove_thinking_tokens (accumulateStream (model (mapInput d)))).1))⟩ := by
  intro l
  induction l with
  | nil => intro idx _; rfl
  | cons d rest ih =>
    intro idx hok
    have hd := hok d (List.mem_cons_self d rest)
    have htail := ih (idx + 1) (fun e he => hok e (List.mem_cons_of_mem d he))
    simp [mapPhase, hd, htail, Except.map]

/-- Claim C1: fail-fast of the Map Stage.  For every model and every chunk
sequence `pre ++ c :: post` in which all chunks of `pre` extract successfully
and extraction fails on `c` (the chunk at 1-based index `pre.length + 1`),
the pipeline raises the error naming that index and the total chunk count,
issues LLM calls only for the chunks up to and including `c` (none for any
later chunk, and no REDUCE call), and returns no output. -/
theorem map_stage_fail_fast (model : List Char → List (List Char))
    (pre : List (List Char)) (c : List Char) (post : List (List Char))
    (hok : ∀ d ∈ pre,
      (remove_thinking_tokens (accumulateStream (model (mapInput d)))).2 = true)
    (hfail : (remove_thinking_tokens (accumulateStream (model (mapInput c)))).2 = false) :
    (condense_from_chunks model (pre ++ c :: post)).outcome
        = .error (mapErrorMsg (pre.length + 1) (pre ++ c :: post).length)
      ∧ (condense_from_chunks model (pre ++ c :: post)).calls
        = pre.map mapInput ++ [mapInput c] := by
  have hm := mapPhase_fail model (pre ++ c :: post).length pre c post 1 hok hfail
  have harith : 1 + pre.length = pre.length + 1 := by omega
  rw [harith] at hm
  unfold condense_from_chunks
  rw [hm]
  exact ⟨rfl, rfl⟩

/-- Witness for claim C1: a single chunk whose response bears no markers
fails at index 1 of 1 and issues exactly one call. -/
theorem map_stage_fail_fast_witness :
    (condense_from_chunks (fun _ => ["no marker here".toList]) ["chunk".toList]).outcome
        = .error (mapErrorMsg 1 1)
      ∧ (condense_from_chunks (fun _ => ["no marker here".toList]) ["chunk".toList]).calls
        = [mapInput ("chunk".toList)] :=
  map_stage_fail_fast (fun _ => ["no marker here".toList]) [] ("chunk".toList) []
    (by intro d hd; exact absurd hd (List.not_mem_nil d)) (by decide)

/-- Claim C7: Map Stage order and cardinality.  When every extraction
succeeds, the map phase yields exactly one processed result per input chunk,
in the same order: the result at position `k` is the extraction of the LLM
response to the prompt built from the chunk at position `k`. -/
theorem map_stage_order (model : List Char → List (List Char))
    (chunks : List (List Char))
    (hok : ∀ d ∈ chunks,
      (remove_thinking_tokens (accumulateStream (model (mapInput d)))).2 = true) :
    (mapPhase model chunks.length 1 chunks).outcome
        = .ok (chunks.map (fun d =>
            (remove_thinking_tokens (accumulateStream (model (mapInput d)))).1))
      ∧ (chunks.map (fun d =>
            (remove_thinking_tokens (accumulateStream (model (mapInput d)))).1)).length
          = chunks.length := by
  rw [mapPhase_ok model chunks.length chunks 1 hok]
  exact ⟨rfl, List.length_map chunks _⟩

/-- Witness for claim C7 on two concrete chunks with a well-formed response. -/
theorem map_stage_order_witness :
    (mapPhase (fun _ => ["<final_script>ok</final_script>".toList]) 2 1
        ["a".toList, "b".toList]).outcome
        = .ok (["a".toList, "b".toList].map (fun d =>
            (remove_thinking_tokens (accumulateStream
              ((fun _ => ["<final_script>ok</final_script>".toList]) (mapInput d)))).1))
      ∧ (["a".toList, "b".toList].map (fun d =>
            (remove_thinking_tokens (accumulateStream
              ((fun _ => ["<final_script>ok</final_script>".toList]) (mapInput d)))).1)).length
          = (["a".toList, "b".toList]).length :=
  map_stage_order (fun _ => ["<final_script>ok</final_script>".toList])
    ["a".toList, "b".toList] (by
      intro d _
      show (remove_thinking_tokens
        (accumulateStream ["<final_script>ok</final_script>".toList])).2 = true
      decide)

/-- Claim C8: the REDUCE prompt is built from the ordered processed chunks
joined by the fixed separator `"\n\n---\n\n"`, the REDUCE call is issued
exactly once per run (the call trace is the map prompts followed by exactly
one reduce prompt, regardless of the chunk count), and on reduce extraction
success the pipeline returns that single extracted string. -/
theorem reduce_stage_contract (model : List Char → List (List Char))
    (chunks : List (List Char))
    (hok : ∀ d ∈ chunks,
      (remove_thinking_tokens (accumulateStream (model (mapInput d)))).2 = true)
    (hred : (remove_thinking_tokens (accumulateStream (model (reduceInput
        (List.intercalate chunk_separator (chunks.map (fun d =>
          (remove_thinking_tokens (accumulateStream (model (mapInput d)))).1))))))).2
        = true) :
    condense_from_chunks model chunks
      = ⟨chunks.map mapInput
          ++ [reduceInput (List.intercalate chunk_separator (chunks.map (fun d =>
              (remove_thinking_tokens (accumulateStream (model (mapInput d)))).1)))],
         .ok (remove_thinking_tokens (accumulateStream (model (reduceInput
            (List.intercalate chunk_separator (chunks.map (fun d =>
              (remove_thinking_tokens (accumulateStream (model (mapInput d)))).1))))))).1⟩ := by
  have hm := mapPhase_ok model chunks.length chunks 1 hok
  unfold condense_from_chunks
  rw [hm]
  simp [hred]

/-- Witness for claim C8 on one concrete chunk with well-formed responses. -/
theorem reduce_stage_contract_witness :
    condense_from_chunks (fun _ => ["<final_script>ok</final_script>".toList])
        ["a".toList]
      = ⟨(["a".toList]).map mapInput
          ++ [reduceInput (List.intercalate chunk_separator ((["a".toList]).map (fun d =>
              (remove_thinking_tokens (accumulateStream
                ((fun _ => ["<final_script>ok</final_script>".toList])
                  (mapInput d)))).1)))],
         .ok (remove_thinking_tokens (accumulateStream
            ((fun _ => ["<final_script>ok</final_script>".toList])
              (reduceInput (List.intercalate chunk_separator ((["a".toList]).map (fun d =>
                (remove_thinking_tokens (accumulateStream
                  ((fun _ => ["<final_script>ok</final_script>".toList])
                    (mapInput d)))).1))))))).1⟩ :=
  reduce_stage_contract (fun _ => ["<final_script>ok</final_script>".toList])
    ["a".toList] (by
      intro d _
      show (remove_thinking_tokens
        (accumulateStream ["<final_script>ok</final_script>".toList])).2 = true
      decide) (by decide)

/-- Telegram per-message character limit (src/telegram_sender.py). -/
def TELEGRAM_MAX_MESSAGE_LENGTH : Nat := 4096

/-- The loop of `split_message` (src/telegram_sender.py), fuelled: while text
remains, either it fits in one part, or the first `maxLength` characters are
cut at the last space or newline when one exists at a positive position (the
cut whitespace is then removed by `lstrip`), else force-cut at exactly
`maxLength`.  Fuel `remaining.length` always suffices when `0 < maxLength`. -/
def splitLoop (maxLength : Nat) : Nat → List Char → List (List Char)
  | 0, _ => []
  | _, [] => []
  | fuel + 1, remaining =>
    if remaining.length ≤ maxLength then [remaining]
    else
      let chunk := remaining.take maxLength
      let lastSpace := pyRfind chunk [' ']
      let lastNewline := pyRfind chunk ['\n']
      let splitPos := max lastSpace lastNewline
      if 0 < splitPos then
        chunk.take splitPos.toNat
          :: splitLoop maxLength fuel (pyLstrip (remaining.drop splitPos.toNat))
      else
        chunk :: splitLoop maxLength fuel (remaining.drop maxLength)

/-- Embedding of `split_message` from src/telegram_sender.py. -/
def split_message (message : List Char) (maxLength : Nat) : List (List Char) :=
  if message.length ≤ maxLength then [message]
  else splitLoop maxLength message.length message

/-- One unfolding of the `split_message` loop on nonempty remaining text. -/
theorem splitLoop_step (maxLength fuel : Nat) (remaining : List Char)
    (hne : remaining ≠ []) :
    splitLoop maxLength (fuel + 1) remaining =
      if remaining.length ≤ maxLength then [remaining]
      else
        if 0 < max (pyRfind (remaining.take maxLength) [' '])
            (pyRfind (remaining.take maxLength) ['\n']) then
          (remaining.take maxLength).take
              (max (pyRfind (remaining.take maxLength) [' '])
                (pyRfind (remaining.take maxLength) ['\n'])).toNat
            :: splitLoop maxLength fuel (pyLstrip (remaining.drop
                (max (pyRfind (remaining.take maxLength) [' '])
                  (pyRfind (remaining.take maxLength) ['\n'])).toNat))
        else
          remaining.take maxLength
            :: splitLoop maxLength fuel (remaining.drop maxLength) := by
  cases remaining with
  | nil => exact absurd rfl hne
  | cons c cs => rfl

/-- Every character of `w` is whitespace. -/
def AllWhitespace (w : List Char) : Prop := ∀ c ∈ w, pyIsSpace c = true

/-- Interleaving of parts with their following separators: each part is
emitted followed by its separator. -/
def interleave (parts seps : List (List Char)) : List Char :=
  (List.zipWith (fun p s => p ++ s) parts seps).flatten

theorem interleave_nil : interleave [] [] = [] := rfl

theorem interleave_cons (p s : List Char) (ps ss : List (List Char)) :
    interleave (p :: ps) (s :: ss) = p ++ (s ++ interleave ps ss) := by
  simp [interleave]

theorem pyRfind_eq_neg_one {s pat : List Char} (hpat : pat ≠ [])
    (h : ∀ j, j ≤ s.length → ¬ occursAt s pat j) : pyRfind s pat = -1 := by
  rcases pyRfind_spec s pat with ⟨h1, _⟩ | ⟨i, _, hLast⟩
  · exact h1
  · have hb := occursAt_length hpat hLast.1
    have := List.length_pos.mpr hpat
    exact absurd hLast.1 (h i (by omega))

theorem occursAt_singleton {s : List Char} {c : Char} {i : Nat} :
    occursAt s [c] i ↔ s[i]? = some c := by
  have h0 : s[i]? = (s.drop i)[0]? := by
    rw [List.getElem?_drop, Nat.add_zero]
  rw [h0]
  show (s.drop i).take 1 = [c] ↔ (s.drop i)[0]? = some c
  cases s.drop i with
  | nil => simp
  | cons x xs => simp [List.take_succ_cons]

/-- If `pyRfind` for a single whitespace character is positive, that position
is a whitespace character strictly inside the string. -/
theorem pyRfind_singleton_pos {s : List Char} {c : Char}
    (h : 0 < pyRfind s [c]) :
    (pyRfind s [c]).toNat < s.length ∧ s[(pyRfind s [c]).toNat]? = some c := by
  rcases pyRfind_spec s [c] with ⟨h1, _⟩ | ⟨i, hEq, hLast⟩
  · rw [h1] at h
    exact absurd h (by omega)
  · rw [hEq]
    rw [Int.toNat_natCast]
    have hb := occursAt_length (by simp : ([c] : List Char) ≠ []) hLast.1
    simp only [List.length_singleton] at hb
    exact ⟨by omega, occursAt_singleton.mp hLast.1⟩

/-- The invariant of the `split_message` loop: the remaining text is the
interleaving of the returned parts with whitespace-only separators, every
part fits the limit, and a part followed by an empty separator at a non-final
boundary has exactly the maximal length. -/
theorem splitLoop_spec (M : Nat) (hM : 0 < M) :
    ∀ (fuel : Nat) (r : List Char), r.length ≤ fuel →
    ∃ seps : List (List Char),
      seps.length = (splitLoop M fuel r).length
      ∧ r = interleave (splitLoop M fuel r) seps
      ∧ (∀ w ∈ seps, AllWhitespace w)
      ∧ (∀ p ∈ splitLoop M fuel r, p.length ≤ M)
      ∧ (∀ k, k + 1 < (splitLoop M fuel r).length → seps.getD k [] = [] →
          ((splitLoop M fuel r).getD k []).length = M) := by
  intro fuel
  induction fuel with
  | zero =>
    intro r hr
    have hrn : r = [] := List.eq_nil_of_length_eq_zero (by omega)
    subst hrn
    exact ⟨[], rfl, rfl, fun w hw => absurd hw (List.not_mem_nil w),
      fun p hp => absurd hp (List.not_mem_nil p),
      fun k hk _ => absurd hk (Nat.not_lt_zero (k + 1))⟩
  | succ fuel ih =>
    intro r hr
    cases r with
    | nil =>
      exact ⟨[], rfl, rfl, fun w hw => absurd hw (List.not_mem_nil w),
        fun p hp => absurd hp (List.not_mem_nil p),
        fun k hk _ => absurd hk (Nat.not_lt_zero (k + 1))⟩
    | cons c cs =>
      rw [splitLoop_step M fuel (c :: cs) (List.cons_ne_nil c cs)]
      by_cases hfit : (c :: cs).length ≤ M
      · rw [if_pos hfit]
        refine ⟨[[]], rfl, ?_, ?_, ?_, ?_⟩
        · show c :: cs = interleave [c :: cs] [[]]
          simp [interleave]
        · intro w hw
          rcases List.mem_singleton.mp hw with rfl
          intro x hx
          exact absurd hx (List.not_mem_nil x)
        · intro p hp
          rcases List.mem_singleton.mp hp with rfl
          exact hfit
        · intro k hk
          simp at hk
      · rw [if_neg hfit]
        have hclen : ((c :: cs).take M).length = M := by
          rw [List.length_take]
          omega
        by_cases hpos : 0 < max (pyRfind ((c :: cs).take M) [' '])
            (pyRfind ((c :: cs).take M) ['\n'])
        · rw [if_pos hpos]
          set sp := max (pyRfind ((c :: cs).take M) [' '])
            (pyRfind ((c :: cs).take M) ['\n']) with hspdef
          have hsp : sp.toNat < M ∧
              ((c :: cs).take M)[sp.toNat]? = some ' ' ∨
              sp.toNat < M ∧ ((c :: cs).take M)[sp.toNat]? = some '\n' := by
            rcases max_choice (pyRfind ((c :: cs).take M) [' '])
                (pyRfind ((c :: cs).take M) ['\n']) with hc | hc
            · left
              rw [hspdef, hc]
              have := pyRfind_singleton_pos (s := (c :: cs).take M) (c := ' ')
                (by rw [← hc, ← hspdef]; exact hpos)
              rw [hclen] at this
              exact this
            · right
              rw [hspdef, hc]
              have := pyRfind_singleton_pos (s := (c :: cs).take M) (c := '\n')
                (by rw [← hc, ← hspdef]; exact hpos)
              rw [hclen] at this
              exact this
          have hsplt : sp.toNat < M ∧ ∃ w, ((c :: cs).take M)[sp.toNat]? = some w
              ∧ pyIsSpace w = true := by
            rcases hsp with ⟨h1, h2⟩ | ⟨h1, h2⟩
            · exact ⟨h1, ' ', h2, by decide⟩
            · exact ⟨h1, '\n', h2, by decide⟩
          rcases hsplt with ⟨hspM, w0, hw0, hw0s⟩
          have hsp1 : 1 ≤ sp.toNat := by
            omega
          have hgr : (c :: cs)[sp.toNat]? = some w0 := by
            rw [← List.getElem?_take_of_lt hspM]
            exact hw0
          have hdropform : ∃ rest, (c :: cs).drop sp.toNat = w0 :: rest := by
            have h0 : ((c :: cs).drop sp.toNat)[0]? = some w0 := by
              rw [List.getElem?_drop, Nat.add_zero]
              exact hgr
            cases hd : (c :: cs).drop sp.toNat with
            | nil => rw [hd] at h0; exact absurd h0 (by simp)
            | cons x xs =>
              rw [hd, List.getElem?_cons_zero, Option.some_inj] at h0
              exact ⟨xs, by rw [h0]⟩
          rcases hdropform with ⟨rest, hrest⟩
          have hr' : (pyLstrip ((c :: cs).drop sp.toNat)).length ≤ fuel := by
            have h1 : (pyLstrip ((c :: cs).drop sp.toNat)).length
                ≤ ((c :: cs).drop sp.toNat).length :=
              (List.dropWhile_sublist pyIsSpace).length_le
            rw [List.length_drop] at h1
            omega
          rcases ih (pyLstrip ((c :: cs).drop sp.toNat)) hr' with
            ⟨seps', hlen', hint', hws', hple', hbound'⟩
          refine ⟨(((c :: cs).drop sp.toNat).takeWhile pyIsSpace) :: seps', ?_, ?_, ?_, ?_, ?_⟩
          · simp [hlen']
          · rw [interleave_cons]
            have hpart : ((c :: cs).take M).take sp.toNat = (c :: cs).take sp.toNat := by
              rw [List.take_take, inf_eq_left.mpr (by omega : sp.toNat ≤ M)]
            rw [hpart, ← hint']
            show c :: cs = (c :: cs).take sp.toNat
              ++ (((c :: cs).drop sp.toNat).takeWhile pyIsSpace
                ++ ((c :: cs).drop sp.toNat).dropWhile pyIsSpace)
            rw [List.takeWhile_append_dropWhile, List.take_append_drop]
          · intro w hw
            rcases List.mem_cons.mp hw with rfl | hw
            · intro x hx
              exact List.mem_takeWhile_imp hx
            · exact hws' w hw
          · intro p hp
            rcases List.mem_cons.mp hp with rfl | hp
            · rw [List.length_take, hclen]
              omega
            · exact hple' p hp
          · intro k hk hsep
            cases k with
            | zero =>
              exfalso
              rw [List.getD_cons_zero, hrest, List.takeWhile_cons,
                if_pos hw0s] at hsep
              exact absurd hsep (List.cons_ne_nil w0 _)
            | succ k =>
              rw [List.getD_cons_succ] at hsep ⊢
              rw [List.length_cons] at hk
              exact hbound' k (by omega) hsep
        · rw [if_neg hpos]
          have hr' : ((c :: cs).drop M).length ≤ fuel := by
            rw [List.length_drop]
            omega
          rcases ih ((c :: cs).drop M) hr' with
            ⟨seps', hlen', hint', hws', hple', hbound'⟩
          refine ⟨[] :: seps', ?_, ?_, ?_, ?_, ?_⟩
          · simp [hlen']
          · rw [interleave_cons, List.nil_append, ← hint', List.take_append_drop]
          · intro w hw
            rcases List.mem_cons.mp hw with rfl | hw
            · intro x hx
              exact absurd hx (List.not_mem_nil x)
            · exact hws' w hw
          · intro p hp
            rcases List.mem_cons.mp hp with rfl | hp
            · rw [hclen]
            · exact hple' p hp
          · intro k hk hsep
            cases k with
            | zero =>
              rw [List.getD_cons_zero]
              exact hclen
            | succ k =>
              rw [List.getD_cons_succ] at hsep ⊢
              rw [List.length_cons] at hk
              exact hbound' k (by omega) hsep

/-- Claim C9 amended: `split_message` returns ordered parts each at most 4096
characters, and the message is recovered by re-inserting a (possibly empty)
whitespace-only separator after each part — whitespace at split boundaries is
dropped, so the bare concatenation need not reproduce the message.  Moreover
a non-final part followed by an empty dropped separator is a force-split of
exactly 4096 characters (a word longer than the limit); every other internal
boundary sits at dropped whitespace, i.e. at a word or line boundary. -/
theorem split_message_parts (msg : List Char) :
    ∃ seps : List (List Char),
      seps.length = (split_message msg TELEGRAM_MAX_MESSAGE_LENGTH).length
      ∧ msg = interleave (split_message msg TELEGRAM_MAX_MESSAGE_LENGTH) seps
      ∧ (∀ w ∈ seps, AllWhitespace w)
      ∧ (∀ p ∈ split_message msg TELEGRAM_MAX_MESSAGE_LENGTH,
          p.length ≤ TELEGRAM_MAX_MESSAGE_LENGTH)
      ∧ (∀ k, k + 1 < (split_message msg TELEGRAM_MAX_MESSAGE_LENGTH).length →
          seps.getD k [] = [] →
          ((split_message msg TELEGRAM_MAX_MESSAGE_LENGTH).getD k []).length
            = TELEGRAM_MAX_MESSAGE_LENGTH) := by
  by_cases hfit : msg.length ≤ TELEGRAM_MAX_MESSAGE_LENGTH
  · rw [split_message, if_pos hfit]
    refine ⟨[[]], rfl, ?_, ?_, ?_, ?_⟩
    · show msg = interleave [msg] [[]]
      simp [interleave]
    · intro w hw
      rcases List.mem_singleton.mp hw with rfl
      intro x hx
      exact absurd hx (List.not_mem_nil x)
    · intro p hp
      rcases List.mem_singleton.mp hp with rfl
      exact hfit
    · intro k hk
      simp at hk
  · rw [split_message, if_neg hfit]
    exact splitLoop_spec TELEGRAM_MAX_MESSAGE_LENGTH (by decide) msg.length msg
      (Nat.le_refl msg.length)

/-- Witness for the amended claim C9 at a concrete short message. -/
theorem split_message_parts_witness :
    ∃ seps : List (List Char),
      seps.length = (split_message ("hi there".toList) TELEGRAM_MAX_MESSAGE_LENGTH).length
      ∧ "hi there".toList
          = interleave (split_message ("hi there".toList) TELEGRAM_MAX_MESSAGE_LENGTH) seps
      ∧ (∀ w ∈ seps, AllWhitespace w)
      ∧ (∀ p ∈ split_message ("hi there".toList) TELEGRAM_MAX_MESSAGE_LENGTH,
          p.length ≤ TELEGRAM_MAX_MESSAGE_LENGTH)
      ∧ (∀ k, k + 1 < (split_message ("hi there".toList) TELEGRAM_MAX_MESSAGE_LENGTH).length →
          seps.getD k [] = [] →
          ((split_message ("hi there".toList) TELEGRAM_MAX_MESSAGE_LENGTH).getD k []).length
            = TELEGRAM_MAX_MESSAGE_LENGTH) :=
  split_message_parts ("hi there".toList)

/-- Claim C9 as stated, at one message: every part is within the limit, the
in-order concatenation of the parts reproduces the message exactly, and no
boundary between consecutive parts breaks a word (each internal boundary has
whitespace on at least one side). -/
def splitMessageClaim (msg : List Char) : Prop :=
  (∀ p ∈ split_message msg TELEGRAM_MAX_MESSAGE_LENGTH,
    p.length ≤ TELEGRAM_MAX_MESSAGE_LENGTH)
  ∧ (split_message msg TELEGRAM_MAX_MESSAGE_LENGTH).flatten = msg
  ∧ (∀ k, k + 1 < (split_message msg TELEGRAM_MAX_MESSAGE_LENGTH).length →
      ¬ (∃ c d,
        ((split_message msg TELEGRAM_MAX_MESSAGE_LENGTH).getD k []).getLast?
            = some c
        ∧ pyIsSpace c = false
        ∧ ((split_message msg TELEGRAM_MAX_MESSAGE_LENGTH).getD (k + 1) []).head?
            = some d
        ∧ pyIsSpace d = false))

theorem c9_len : ("ab ".toList ++ List.replicate 4097 'a').length = 4100 := by
  rw [List.length_append, List.length_replicate]
  decide

theorem c9_chunk :
    ("ab ".toList ++ List.replicate 4097 'a').take 4096
      = "ab ".toList ++ List.replicate 4093 'a' := by
  rw [List.take_append_eq_append_take,
    List.take_of_length_le (by decide : ("ab ".toList).length ≤ 4096),
    show (4096 : Nat) - ("ab ".toList).length = 4093 from by decide,
    List.take_replicate, show (4093 : Nat) ⊓ 4097 = 4093 from by decide]

theorem replicate_elem_ne {c a : Char} (n j : Nat) (hca : a ≠ c) :
    (List.replicate n a)[j]? ≠ some c := by
  rw [List.getElem?_replicate]
  by_cases h : j < n
  · rw [if_pos h]
    intro hc
    exact hca (Option.some_inj.mp hc)
  · rw [if_neg h]
    simp

theorem c9_chunk_elem (j : Nat) :
    ("ab ".toList ++ List.replicate 4093 'a')[j]? = some ' ' → j = 2 := by
  intro h
  by_cases hj : j < 3
  · rw [List.getElem?_append_left (by
      rw [show ("ab ".toList).length = 3 from rfl]; omega)] at h
    interval_cases j <;> revert h <;> decide
  · rw [List.getElem?_append_right (by
      rw [show ("ab ".toList).length = 3 from rfl]; omega)] at h
    exact absurd h (replicate_elem_ne 4093 _ (by decide))

theorem c9_chunk_elem_nl (j : Nat) :
    ("ab ".toList ++ List.replicate 4093 'a')[j]? ≠ some '\n' := by
  intro h
  by_cases hj : j < 3
  · rw [List.getElem?_append_left (by
      rw [show ("ab ".toList).length = 3 from rfl]; omega)] at h
    interval_cases j <;> revert h <;> decide
  · rw [List.getElem?_append_right (by
      rw [show ("ab ".toList).length = 3 from rfl]; omega)] at h
    exact absurd h (replicate_elem_ne 4093 _ (by decide))

theorem c9_rfind_space :
    pyRfind ("ab ".toList ++ List.replicate 4093 'a') [' '] = 2 := by
  have hlast : IsLastOccurrence ("ab ".toList ++ List.replicate 4093 'a') [' '] 2 := by
    constructor
    · rw [occursAt_singleton, List.getElem?_append_left (by decide)]
      decide
    · intro j _ hocc
      rw [occursAt_singleton] at hocc
      exact Nat.le_of_eq (c9_chunk_elem j hocc)
  exact_mod_cast pyRfind_eq_of_isLast (by decide) hlast

theorem c9_rfind_newline :
    pyRfind ("ab ".toList ++ List.replicate 4093 'a') ['\n'] = -1 := by
  apply pyRfind_eq_neg_one (by decide)
  intro j _ hocc
  rw [occursAt_singleton] at hocc
  exact c9_chunk_elem_nl j hocc

theorem c9_rfind_rep_space : pyRfind (List.replicate 4096 'a') [' '] = -1 := by
  apply pyRfind_eq_neg_one (by decide)
  intro j _ hocc
  rw [occursAt_singleton] at hocc
  exact replicate_elem_ne 4096 j (by decide) hocc

theorem c9_rfind_rep_newline : pyRfind (List.replicate 4096 'a') ['\n'] = -1 := by
  apply pyRfind_eq_neg_one (by decide)
  intro j _ hocc
  rw [occursAt_singleton] at hocc
  exact replicate_elem_ne 4096 j (by decide) hocc

theorem c9_step1 :
    splitLoop 4096 4100 ("ab ".toList ++ List.replicate 4097 'a')
      = ['a', 'b'] :: splitLoop 4096 4099 (List.replicate 4097 'a') := by
  rw [show (4100 : Nat) = 4099 + 1 from rfl,
    splitLoop_step 4096 4099 _ (by decide), c9_len,
    if_neg (by decide : ¬(4100 : Nat) ≤ 4096), c9_chunk,
    c9_rfind_space, c9_rfind_newline,
    show max (2 : Int) (-1) = 2 from by decide,
    if_pos (by decide : (0 : Int) < 2),
    show ((2 : Int)).toNat = 2 from rfl,
    show ("ab ".toList ++ List.replicate 4093 'a').take 2 = ['a', 'b'] from by
      rw [List.take_append_of_le_length (by decide)]; decide,
    show ("ab ".toList ++ List.replicate 4097 'a').drop 2
        = ' ' :: List.replicate 4097 'a' from by
      rw [List.drop_append_of_le_length (by decide)]; rfl,
    show pyLstrip (' ' :: List.replicate 4097 'a') = List.replicate 4097 'a' from by
      unfold pyLstrip
      rw [List.dropWhile_cons, if_pos (by decide), List.dropWhile_replicate,
        if_neg (by decide)]]

theorem c9_step2 :
    splitLoop 4096 4099 (List.replicate 4097 'a')
      = List.replicate 4096 'a' :: splitLoop 4096 4098 (List.replicate 1 'a') := by
  rw [show (4099 : Nat) = 4098 + 1 from rfl,
    splitLoop_step 4096 4098 _ (by decide), List.length_replicate,
    if_neg (by decide : ¬(4097 : Nat) ≤ 4096),
    List.take_replicate, show (4096 : Nat) ⊓ 4097 = 4096 from by decide,
    c9_rfind_rep_space, c9_rfind_rep_newline,
    show max (-1 : Int) (-1) = -1 from by decide,
    if_neg (by decide : ¬(0 : Int) < -1),
    List.drop_replicate, show (4097 : Nat) - 4096 = 1 from by decide]

theorem c9_step3 :
    splitLoop 4096 4098 (List.replicate 1 'a') = [['a']] := by
  rw [show (4098 : Nat) = 4097 + 1 from rfl,
    splitLoop_step 4096 4097 _ (by decide), List.length_replicate,
    if_pos (by decide : (1 : Nat) ≤ 4096), List.replicate_one]

theorem c9_parts :
    split_message ("ab ".toList ++ List.replicate 4097 'a') TELEGRAM_MAX_MESSAGE_LENGTH
      = [['a', 'b'], List.replicate 4096 'a', ['a']] := by
  rw [split_message, show TELEGRAM_MAX_MESSAGE_LENGTH = 4096 from rfl, c9_len,
    if_neg (by decide : ¬(4100 : Nat) ≤ 4096), c9_step1, c9_step2, c9_step3]

/-- Counterexample to claim C9 as stated: on the 4100-character message
`"ab "` followed by 4097 copies of `a`, the returned parts do not concatenate
back to the message (the space at the first split boundary is dropped), and
the 4097-character word is broken between the second and third part (both
sides of that boundary are the non-whitespace character `a`). -/
theorem split_message_claim_counterexample :
    ¬ splitMessageClaim ("ab ".toList ++ List.replicate 4097 'a')
    ∧ (split_message ("ab ".toList ++ List.replicate 4097 'a')
        TELEGRAM_MAX_MESSAGE_LENGTH).flatten
        ≠ "ab ".toList ++ List.replicate 4097 'a'
    ∧ ((split_message ("ab ".toList ++ List.replicate 4097 'a')
        TELEGRAM_MAX_MESSAGE_LENGTH).getD 1 []).getLast? = some 'a'
    ∧ pyIsSpace 'a' = false
    ∧ ((split_message ("ab ".toList ++ List.replicate 4097 'a')
        TELEGRAM_MAX_MESSAGE_LENGTH).getD 2 []).head? = some 'a' := by
  have hlen2 : (([['a', 'b'], List.replicate 4096 'a', ['a']] :
      List (List Char)).flatten).length = 4099 := by
    rw [show ([['a', 'b'], List.replicate 4096 'a', ['a']] :
        List (List Char)).flatten
        = ['a', 'b'] ++ (List.replicate 4096 'a' ++ (['a'] ++ [])) from rfl,
      List.length_append, List.length_append, List.length_append,
      List.length_replicate]
    decide
  have hflat : (split_message ("ab ".toList ++ List.replicate 4097 'a')
      TELEGRAM_MAX_MESSAGE_LENGTH).flatten
      ≠ "ab ".toList ++ List.replicate 4097 'a' := by
    rw [c9_parts]
    intro h
    have hl := congrArg List.length h
    rw [hlen2, c9_len] at hl
    exact absurd hl (by decide)
  refine ⟨?_, hflat, ?_, by decide, ?_⟩
  · intro hclaim
    exact hflat hclaim.2.1
  · rw [c9_parts, List.getD_cons_succ, List.getD_cons_zero,
      show List.replicate 4096 'a' = List.replicate 4095 'a' ++ ['a'] from
        List.replicate_succ' 4095 'a',
      List.getLast?_concat]
  · rw [c9_parts, List.getD_cons_succ, List.getD_cons_succ, List.getD_cons_zero]
    rfl

end ContentSummarizer
